import Mathlib

/-!
Verification development for the quadtree point index (`quadtree.py`).

The Python source is shallowly embedded: coordinates become rationals,
the `_points` dictionary (Python 3.7+ insertion-ordered) becomes an
association list with insert-or-increment update, the ordered `features`
record becomes a plain list, and the recursive mutation performed by
`add_point` / `subdivide` becomes explicit state passing with a fuel
parameter bounding recursion depth (Python likewise has a recursion
limit; `raise Exception` is modelled by an error value carrying the
state the object holds when the exception propagates).
-/

set_option maxHeartbeats 1000000

namespace Quadtree

/-- A stored point: coordinates plus an opaque payload slot, mirroring the
`Point` class (`x`, `y`, `data`).  Equality is full tuple equality
`(x, y, data)`, exactly as `Point.__eq__` / `Point.__hash__` define it.
Bare coordinate tuples correspond to points whose payload component is
never varied. -/
structure Point where
  x : ℚ
  y : ℚ
  data : ℕ
deriving DecidableEq, Repr

/-- An axis-aligned rectangle `(minx, miny, maxx, maxy)`, the 4-tuple held
in `Node.rectangle`. -/
structure Rect where
  x0 : ℚ
  y0 : ℚ
  x1 : ℚ
  y1 : ℚ
deriving DecidableEq, Repr

/-- Closed-interval containment test of `Node.point_coords_in_bbox` (and the
module-level `point_in_rectangle`): `x0 <= x <= x1 and y0 <= y <= y1`. -/
def pointInRect (r : Rect) (p : Point) : Bool :=
  decide (r.x0 ≤ p.x) && decide (p.x ≤ r.x1) && decide (r.y0 ≤ p.y) && decide (p.y ≤ r.y1)

/-- The `Node.ROOT` / `Node.BRANCH` / `Node.LEAF` tags.  `ROOT` is declared
in the source but never assigned to `self.type`. -/
inductive NodeType where
  | ROOT
  | BRANCH
  | LEAF
deriving DecidableEq, Repr

/-- A `Node` object state: `children`, the `_points` frequency dictionary
(as an insertion-ordered association list), the `features` ordered record
of inserted instances, `number_of_points`, `max_points`, `rectangle`, and
the `type` tag.  The `parent` back-reference is read by no operation and
is omitted. -/
inductive Node : Type where
  | mk (children : List Node) (pts : List (Point × ℕ)) (features : List Point)
       (number_of_points : ℕ) (max_points : ℕ) (rectangle : Rect) (type : NodeType)

def Node.children : Node → List Node
  | .mk cs _ _ _ _ _ _ => cs

/-- Accessor for the `_points` coordinate→count dictionary. -/
def Node.pts : Node → List (Point × ℕ)
  | .mk _ m _ _ _ _ _ => m

def Node.features : Node → List Point
  | .mk _ _ fs _ _ _ _ => fs

def Node.number_of_points : Node → ℕ
  | .mk _ _ _ nop _ _ _ => nop

def Node.max_points : Node → ℕ
  | .mk _ _ _ _ mp _ _ => mp

def Node.rectangle : Node → Rect
  | .mk _ _ _ _ _ r _ => r

def Node.type : Node → NodeType
  | .mk _ _ _ _ _ _ t => t

/-- `Node.__init__(parent, rect, max_points)`: a fresh LEAF with empty
storage and zero count.  The body performs no validation of `rect`;
it merely coerces the entries to float (the identity here) and stores
them. -/
def Node.init (rect : Rect) (max_points : ℕ) : Node :=
  .mk [] [] [] 0 max_points rect .LEAF

/-- The dictionary update in `add_point`:
`self._points[point] += 1` when the key is present (position preserved),
`self._points[point] = 1` otherwise (appended, as Python dicts preserve
insertion order). -/
def freqIncr : List (Point × ℕ) → Point → List (Point × ℕ)
  | [], p => [(p, 1)]
  | (q, k) :: rest, p => if q = p then (q, k + 1) :: rest else (q, k) :: freqIncr rest p

/-- The key list of the `_points` dictionary. -/
def keys (m : List (Point × ℕ)) : List Point :=
  m.map Prod.fst

/-- Expansion performed by the `points` property: each `(coordinate,
frequency)` item contributes `frequency` copies, in dictionary order. -/
def expandFreq : List (Point × ℕ) → List Point
  | [] => []
  | (q, k) :: rest => List.replicate k q ++ expandFreq rest

/-- The `points` property of `Node`. -/
def Node.points (n : Node) : List Point :=
  expandFreq n.pts

/-- Rebuild of the `_points` dictionary implied by inserting a record list
in order into an initially empty leaf. -/
def foldFreq (fs : List Point) : List (Point × ℕ) :=
  fs.foldl freqIncr []

/-- The four child rectangles computed by `subdivide`, in source order:
half widths/heights from the parent `(x0, y0, x1, y1)`. -/
def quadrants (r : Rect) : List Rect :=
  [ ⟨r.x0, r.y0, r.x0 + (r.x1 - r.x0) / 2, r.y0 + (r.y1 - r.y0) / 2⟩,
    ⟨r.x0, r.y0 + (r.y1 - r.y0) / 2, r.x0 + (r.x1 - r.x0) / 2, r.y1⟩,
    ⟨r.x0 + (r.x1 - r.x0) / 2, r.y0 + (r.y1 - r.y0) / 2, r.x1, r.y1⟩,
    ⟨r.x0 + (r.x1 - r.x0) / 2, r.y0, r.x1, r.y0 + (r.y1 - r.y0) / 2⟩ ]

/-- Failure modes.  Both failing paths of the source (`add_point` on an
out-of-bounds point, `subdivide` on a non-leaf) execute the bare statement
`raise Exception`, so a single generic constructor models both; the second
constructor is the artifact of bounding the recursion depth (Python's
`RecursionError`). -/
inductive Err where
  | exception
  | fuelExhausted
deriving DecidableEq, Repr

/-- Result of a mutating operation: the updated node, or an error paired
with the state the node holds when the exception propagates. -/
abbrev Res := Except (Err × Node) Node

mutual

/-- `Node.add_point(point)`.  Out-of-bounds raises; a LEAF updates the
frequency dictionary, appends to `features`, bumps the count and
subdivides when the number of distinct keys exceeds `max_points`;
otherwise the point is routed to the first child whose bounding box
contains it (and the count is bumped only if such a child exists). -/
def addPoint : ℕ → Node → Point → Res
  | 0, n, _ => .error (.fuelExhausted, n)
  | f + 1, n, p =>
    if pointInRect n.rectangle p then
      if n.type = NodeType.LEAF then
        let n1 : Node := .mk n.children (freqIncr n.pts p) (n.features ++ [p])
          (n.number_of_points + 1) n.max_points n.rectangle n.type
        if n.max_points < (freqIncr n.pts p).length then subdivide f n1 else .ok n1
      else
        match route f n.children p with
        | .ok (cs, true) => .ok (.mk cs n.pts n.features (n.number_of_points + 1)
            n.max_points n.rectangle n.type)
        | .ok (cs, false) => .ok (.mk cs n.pts n.features n.number_of_points
            n.max_points n.rectangle n.type)
        | .error (e, cs) => .error (e, .mk cs n.pts n.features n.number_of_points
            n.max_points n.rectangle n.type)
    else .error (.exception, n)

/-- `Node.subdivide()`.  Raises on a non-leaf; otherwise clears the point
storage, switches the tag to BRANCH, appends four fresh leaf children
over the quadrant rectangles and re-inserts every previously stored
instance via the same first-match routing loop. -/
def subdivide : ℕ → Node → Res
  | 0, n => .error (.fuelExhausted, n)
  | f + 1, n =>
    if n.type = NodeType.LEAF then
      match reinsert f (n.children ++ (quadrants n.rectangle).map
          (fun r => Node.init r n.max_points)) n.features with
      | .ok cs => .ok (.mk cs [] [] n.number_of_points n.max_points n.rectangle .BRANCH)
      | .error (e, cs) => .error (e, .mk cs [] [] n.number_of_points n.max_points
          n.rectangle .BRANCH)
    else .error (.exception, n)

/-- The first-match routing loop `for child in self.children: if
child.point_coords_in_bbox(point): child.add_point(point); break`, shared
by the BRANCH case of `add_point` and by `subdivide`.  The boolean records
whether some child consumed the point. -/
def route : ℕ → List Node → Point → Except (Err × List Node) (List Node × Bool)
  | 0, cs, _ => .error (.fuelExhausted, cs)
  | _ + 1, [], _ => .ok ([], false)
  | f + 1, c :: cs, p =>
    if pointInRect c.rectangle p then
      match addPoint f c p with
      | .ok c2 => .ok (c2 :: cs, true)
      | .error (e, c2) => .error (e, c2 :: cs)
    else
      match route f cs p with
      | .ok (cs2, b) => .ok (c :: cs2, b)
      | .error (e, cs2) => .error (e, c :: cs2)

/-- The re-insertion loop of `subdivide` over the saved `features` list. -/
def reinsert : ℕ → List Node → List Point → Except (Err × List Node) (List Node)
  | 0, cs, _ => .error (.fuelExhausted, cs)
  | _ + 1, cs, [] => .ok cs
  | f + 1, cs, p :: ps =>
    match route f cs p with
    | .ok (cs2, _) => reinsert f cs2 ps
    | .error (e, cs2) => .error (e, cs2)

end

/-- Sequential insertion of a list of points (the loop in
`QuadTree.__init__`, or repeated `add_point` calls), stopping at the
first failure. -/
def insertAll (f : ℕ) : Node → List Point → Res
  | n, [] => .ok n
  | n, p :: ps =>
    match addPoint f n p with
    | .ok n2 => insertAll f n2 ps
    | .error e => .error e

mutual

/-- `Node.get_all_points()`: the `features` record of a LEAF, or the
concatenation over children. -/
def Node.get_all_points : Node → List Point
  | .mk cs _ fs _ _ _ t => if t = NodeType.LEAF then fs else getAllList cs

def getAllList : List Node → List Point
  | [] => []
  | c :: cs => Node.get_all_points c ++ getAllList cs

end

mutual

/-- `Node.walk()`: the `points` expansion of a LEAF, or the children's
walks concatenated in order (the generator, read off as the finite list
it yields). -/
def Node.walk : Node → List Point
  | .mk cs pts _ _ _ _ t => if t = NodeType.LEAF then expandFreq pts else walkList cs

def walkList : List Node → List Point
  | [] => []
  | c :: cs => Node.walk c ++ walkList cs

end

/-- The abstract region capability consumed by the queries: the three
boolean tests a `Feature` provides (`contains_rectangle`,
`intersects_rectangle`, `contains_point`).  The geometry engine behind
them is out of scope, so the tests are arbitrary boolean functions. -/
structure Region where
  contains_rectangle : Rect → Bool
  intersects_rectangle : Rect → Bool
  contains_point : Point → Bool

/-- The leaf-level manual count of `count_overlapping_points`:
`sum(frequency for point, frequency in self._points.items() if
feature.contains_point(point))`. -/
def countIf (pred : Point → Bool) (m : List (Point × ℕ)) : ℕ :=
  ((m.filter fun kv => pred kv.1).map Prod.snd).sum

mutual

/-- `Node.count_overlapping_points(feature)`: the three-way
fully-contains / intersects / disjoint dispatch. -/
def Node.count_overlapping_points (feature : Region) : Node → ℕ
  | .mk cs pts _ nop _ r t =>
    if feature.contains_rectangle r then nop
    else if feature.intersects_rectangle r then
      if t = NodeType.LEAF then countIf feature.contains_point pts
      else countList feature cs
    else 0

def countList (feature : Region) : List Node → ℕ
  | [] => 0
  | c :: cs => Node.count_overlapping_points feature c + countList feature cs

end

mutual

/-- `Node.get_overlapping_points(feature)`: same dispatch, returning the
stored records. -/
def Node.get_overlapping_points (feature : Region) : Node → List Point
  | .mk cs pts fs nop mp r t =>
    if feature.contains_rectangle r then
      Node.get_all_points (.mk cs pts fs nop mp r t)
    else if feature.intersects_rectangle r then
      if t = NodeType.LEAF then fs.filter (fun q => feature.contains_point q)
      else getOvList feature cs
    else []

def getOvList (feature : Region) : List Node → List Point
  | [] => []
  | c :: cs => Node.get_overlapping_points feature c ++ getOvList feature cs

end

/-- Distinct values of a record list in order of first occurrence (how the
`_points` dictionary orders its keys). -/
def firstOccur (fs : List Point) : List Point :=
  fs.foldl (fun acc q => if q ∈ acc then acc else acc ++ [q]) []

/-- Multiplicity of a value in a record list. -/
def countSame (fs : List Point) (q : Point) : ℕ :=
  (fs.filter fun x => x = q).length

/-- Grouped rendering of a record list: for each listed key in order, that
key repeated by its multiplicity in `fs`. -/
def groupExpand : List Point → List Point → List Point
  | [], _ => []
  | q :: ks, fs => List.replicate (countSame fs q) q ++ groupExpand ks fs

/-- The error component of a mutation result, if any. -/
def errOf : Res → Option Err
  | .ok _ => none
  | .error (e, _) => some e

/-- The state invariant of every node produced by construction, successful
insertion and successful subdivision.  A LEAF's fields are determined by
its record list `fs`: the dictionary is the fold of the updates, the
count is the record length, every record lies in the rectangle and the
number of distinct keys is within capacity.  A BRANCH has empty own
storage, children over exactly the quadrant rectangles with the same
capacity, and the sum of the children's counts. -/
inductive Wf : Node → Prop where
  | leaf : ∀ (fs : List Point) (mp : ℕ) (r : Rect),
      (∀ q ∈ fs, pointInRect r q = true) →
      (foldFreq fs).length ≤ mp →
      Wf (.mk [] (foldFreq fs) fs fs.length mp r .LEAF)
  | branch : ∀ (cs : List Node) (mp : ℕ) (r : Rect),
      cs.map Node.rectangle = quadrants r →
      (∀ c ∈ cs, Wf c) →
      (∀ c ∈ cs, c.max_points = mp) →
      Wf (.mk cs [] [] ((cs.map Node.number_of_points).sum) mp r .BRANCH)

/-- Reachable node states: fresh construction, successful insertion,
successful subdivision, and descent to a child. -/
inductive Reaches : Node → Prop where
  | init : ∀ (r : Rect) (mp : ℕ), Reaches (Node.init r mp)
  | add : ∀ (f : ℕ) (n n2 : Node) (p : Point),
      Reaches n → addPoint f n p = .ok n2 → Reaches n2
  | subdiv : ∀ (f : ℕ) (n n2 : Node),
      Reaches n → subdivide f n = .ok n2 → Reaches n2
  | child : ∀ (n c : Node), Reaches n → c ∈ n.children → Reaches c

/-- The state of the leaf node handed to `subdivide` (a well-formed leaf,
except that the number of distinct keys may just have exceeded
capacity). -/
def LeafReady (n : Node) : Prop :=
  n.type = .LEAF ∧ n.children = [] ∧ n.pts = foldFreq n.features ∧
  n.number_of_points = n.features.length ∧
  ∀ q ∈ n.features, pointInRect n.rectangle q = true

/-- The leaf update performed by `add_point` before the overflow check. -/
def leafUpd (n : Node) (p : Point) : Node :=
  .mk n.children (freqIncr n.pts p) (n.features ++ [p]) (n.number_of_points + 1)
    n.max_points n.rectangle n.type

/-- Preservation statement for `addPoint` at a given fuel. -/
def AddStmt (f : ℕ) : Prop :=
  ∀ n p n2, Wf n → addPoint f n p = .ok n2 →
    Wf n2 ∧ n2.rectangle = n.rectangle ∧ n2.max_points = n.max_points ∧
    n2.number_of_points = n.number_of_points + 1 ∧
    List.Perm (Node.get_all_points n2) (p :: Node.get_all_points n) ∧
    (n.type = .BRANCH → n2.type = .BRANCH)

/-- Preservation statement for `subdivide` at a given fuel. -/
def SubStmt (f : ℕ) : Prop :=
  ∀ n n2, LeafReady n → subdivide f n = .ok n2 →
    Wf n2 ∧ n2.rectangle = n.rectangle ∧ n2.max_points = n.max_points ∧
    n2.number_of_points = n.number_of_points ∧ n2.pts = [] ∧ n2.features = [] ∧
    n2.type = .BRANCH ∧ n2.children.map Node.rectangle = quadrants n.rectangle ∧
    List.Perm (Node.get_all_points n2) n.features

/-- Preservation statement for the routing loop at a given fuel. -/
def RouteStmt (f : ℕ) : Prop :=
  ∀ cs p out, (∀ c ∈ cs, Wf c) → route f cs p = .ok out →
    (∀ c ∈ out.1, Wf c) ∧ out.1.map Node.rectangle = cs.map Node.rectangle ∧
    out.1.map Node.max_points = cs.map Node.max_points ∧
    (out.2 = true → (out.1.map Node.number_of_points).sum
        = (cs.map Node.number_of_points).sum + 1 ∧
      List.Perm (getAllList out.1) (p :: getAllList cs)) ∧
    (out.2 = false → out.1 = cs ∧ ∀ c ∈ cs, pointInRect c.rectangle p = false)

/-- Preservation statement for the re-insertion loop at a given fuel. -/
def ReinsStmt (f : ℕ) : Prop :=
  ∀ cs ps cs2, (∀ c ∈ cs, Wf c) →
    (∀ q ∈ ps, ∃ c ∈ cs, pointInRect c.rectangle q = true) →
    reinsert f cs ps = .ok cs2 →
    (∀ c ∈ cs2, Wf c) ∧ cs2.map Node.rectangle = cs.map Node.rectangle ∧
    cs2.map Node.max_points = cs.map Node.max_points ∧
    (cs2.map Node.number_of_points).sum
      = (cs.map Node.number_of_points).sum + ps.length ∧
    List.Perm (getAllList cs2) (ps ++ getAllList cs)

@[simp]
theorem children_mk (cs pts fs nop mp r t) :
    (Node.mk cs pts fs nop mp r t).children = cs := rfl

@[simp]
theorem pts_mk (cs pts fs nop mp r t) :
    (Node.mk cs pts fs nop mp r t).pts = pts := rfl

@[simp]
theorem features_mk (cs pts fs nop mp r t) :
    (Node.mk cs pts fs nop mp r t).features = fs := rfl

@[simp]
theorem number_of_points_mk (cs pts fs nop mp r t) :
    (Node.mk cs pts fs nop mp r t).number_of_points = nop := rfl

@[simp]
theorem max_points_mk (cs pts fs nop mp r t) :
    (Node.mk cs pts fs nop mp r t).max_points = mp := rfl

@[simp]
theorem rectangle_mk (cs pts fs nop mp r t) :
    (Node.mk cs pts fs nop mp r t).rectangle = r := rfl

@[simp]
theorem type_mk (cs pts fs nop mp r t) :
    (Node.mk cs pts fs nop mp r t).type = t := rfl

theorem node_ext (n : Node) :
    n = .mk n.children n.pts n.features n.number_of_points n.max_points
      n.rectangle n.type := by
  cases n
  rfl

@[simp]
theorem getAll_leaf (cs pts fs nop mp r) :
    Node.get_all_points (.mk cs pts fs nop mp r .LEAF) = fs := by
  rw [Node.get_all_points]
  rfl

@[simp]
theorem getAll_branch (cs pts fs nop mp r) :
    Node.get_all_points (.mk cs pts fs nop mp r .BRANCH) = getAllList cs := by
  rw [Node.get_all_points]
  rfl

@[simp]
theorem getAllList_nil : getAllList [] = [] := rfl

@[simp]
theorem getAllList_cons (c cs) :
    getAllList (c :: cs) = Node.get_all_points c ++ getAllList cs := by
  rw [getAllList]

@[simp]
theorem walk_leaf (cs pts fs nop mp r) :
    Node.walk (.mk cs pts fs nop mp r .LEAF) = expandFreq pts := by
  rw [Node.walk]
  rfl

@[simp]
theorem walk_branch (cs pts fs nop mp r) :
    Node.walk (.mk cs pts fs nop mp r .BRANCH) = walkList cs := by
  rw [Node.walk]
  rfl

@[simp]
theorem walkList_nil : walkList [] = [] := rfl

@[simp]
theorem walkList_cons (c cs) :
    walkList (c :: cs) = Node.walk c ++ walkList cs := by
  rw [walkList]

theorem addPoint_zero (n p) : addPoint 0 n p = .error (.fuelExhausted, n) := rfl

theorem addPoint_oob (f n p) (h : pointInRect n.rectangle p = false) :
    addPoint (f + 1) n p = .error (.exception, n) := by
  rw [addPoint, h]
  rfl

theorem addPoint_leaf (f n p) (hin : pointInRect n.rectangle p = true)
    (ht : n.type = .LEAF) :
    addPoint (f + 1) n p =
      if n.max_points < (freqIncr n.pts p).length then subdivide f (leafUpd n p)
      else .ok (leafUpd n p) := by
  simp [addPoint, hin, ht, leafUpd]

theorem addPoint_branch (f n p) (hin : pointInRect n.rectangle p = true)
    (ht : ¬n.type = .LEAF) :
    addPoint (f + 1) n p =
      match route f n.children p with
      | .ok (cs, true) => .ok (.mk cs n.pts n.features (n.number_of_points + 1)
          n.max_points n.rectangle n.type)
      | .ok (cs, false) => .ok (.mk cs n.pts n.features n.number_of_points
          n.max_points n.rectangle n.type)
      | .error (e, cs) => .error (e, .mk cs n.pts n.features n.number_of_points
          n.max_points n.rectangle n.type) := by
  simp [addPoint, hin, ht]

theorem subdivide_zero (n) : subdivide 0 n = .error (.fuelExhausted, n) := rfl

theorem subdivide_not_leaf (f n) (ht : ¬n.type = .LEAF) :
    subdivide (f + 1) n = .error (.exception, n) := by
  rw [subdivide, if_neg ht]

theorem subdivide_leaf (f n) (ht : n.type = .LEAF) :
    subdivide (f + 1) n =
      match reinsert f (n.children ++ (quadrants n.rectangle).map
          (fun r => Node.init r n.max_points)) n.features with
      | .ok cs => .ok (.mk cs [] [] n.number_of_points n.max_points n.rectangle .BRANCH)
      | .error (e, cs) => .error (e, .mk cs [] [] n.number_of_points n.max_points
          n.rectangle .BRANCH) := by
  rw [subdivide, if_pos ht]

theorem route_zero (cs p) : route 0 cs p = .error (.fuelExhausted, cs) := rfl

theorem route_nil (f p) : route (f + 1) [] p = .ok ([], false) := rfl

theorem route_cons_hit (f c cs p) (h : pointInRect c.rectangle p = true) :
    route (f + 1) (c :: cs) p =
      match addPoint f c p with
      | .ok c2 => .ok (c2 :: cs, true)
      | .error (e, c2) => .error (e, c2 :: cs) := by
  rw [route, h]
  rfl

theorem route_cons_miss (f c cs p) (h : pointInRect c.rectangle p = false) :
    route (f + 1) (c :: cs) p =
      match route f cs p with
      | .ok (cs2, b) => .ok (c :: cs2, b)
      | .error (e, cs2) => .error (e, c :: cs2) := by
  rw [route, h]
  rfl

theorem reinsert_zero (cs ps) : reinsert 0 cs ps = .error (.fuelExhausted, cs) := rfl

theorem reinsert_nil (f cs) : reinsert (f + 1) cs [] = .ok cs := rfl

theorem reinsert_cons (f cs p ps) :
    reinsert (f + 1) cs (p :: ps) =
      match route f cs p with
      | .ok (cs2, _) => reinsert f cs2 ps
      | .error (e, cs2) => .error (e, cs2) := by
  rw [reinsert]

@[simp]
theorem keys_nil : keys [] = [] := rfl

@[simp]
theorem keys_cons (q k rest) : keys ((q, k) :: rest) = q :: keys rest := rfl

@[simp]
theorem length_keys (m) : (keys m).length = m.length := by
  simp [keys]

theorem keys_freqIncr (m : List (Point × ℕ)) (p : Point) :
    keys (freqIncr m p) = if p ∈ keys m then keys m else keys m ++ [p] := by
  induction m with
  | nil => simp [freqIncr]
  | cons qk rest ih =>
    obtain ⟨q, k⟩ := qk
    by_cases hq : q = p
    · subst hq
      simp [freqIncr]
    · have hne : ¬p = q := fun h2 => hq h2.symm
      by_cases hm : p ∈ keys rest
      · simp [freqIncr, hq, ih, hm, hne]
      · simp [freqIncr, hq, ih, hm, hne]

theorem mem_keys_freqIncr_self (m p) : p ∈ keys (freqIncr m p) := by
  rw [keys_freqIncr]
  by_cases hm : p ∈ keys m
  · simpa [hm] using hm
  · simp [hm]

theorem length_freqIncr (m p) :
    (freqIncr m p).length = if p ∈ keys m then m.length else m.length + 1 := by
  have h := congrArg List.length (keys_freqIncr m p)
  rw [length_keys] at h
  by_cases hm : p ∈ keys m
  · rw [if_pos hm] at h
    rw [if_pos hm, h, length_keys]
  · rw [if_neg hm] at h
    rw [if_neg hm, h]
    simp

theorem expandFreq_freqIncr_perm (m p) :
    List.Perm (expandFreq (freqIncr m p)) (p :: expandFreq m) := by
  induction m with
  | nil => simp [freqIncr, expandFreq]
  | cons qk rest ih =>
    obtain ⟨q, k⟩ := qk
    by_cases hq : q = p
    · subst hq
      simp [freqIncr, expandFreq, List.replicate_succ]
    · rw [freqIncr, if_neg hq, expandFreq, expandFreq]
      exact (List.Perm.append_left _ ih).trans List.perm_middle

theorem expandFreq_foldl_perm (fs : List Point) (m) :
    List.Perm (expandFreq (List.foldl freqIncr m fs)) (expandFreq m ++ fs) := by
  induction fs generalizing m with
  | nil => simp
  | cons q rest ih =>
    simp only [List.foldl_cons]
    refine (ih (freqIncr m q)).trans ?_
    refine (List.Perm.append_right rest (expandFreq_freqIncr_perm m q)).trans ?_
    exact List.perm_middle.symm

theorem expandFreq_foldFreq_perm (fs : List Point) :
    List.Perm (expandFreq (foldFreq fs)) fs := by
  simpa [foldFreq, expandFreq] using expandFreq_foldl_perm fs []

theorem countIf_cons (pred q k rest) :
    countIf pred ((q, k) :: rest) = (if pred q then k else 0) + countIf pred rest := by
  by_cases h : pred q <;> simp [countIf, h]

theorem countIf_freqIncr (pred m p) :
    countIf pred (freqIncr m p) = countIf pred m + (if pred p then 1 else 0) := by
  induction m with
  | nil =>
    by_cases h : pred p <;> simp [freqIncr, countIf, h]
  | cons qk rest ih =>
    obtain ⟨q, k⟩ := qk
    by_cases hq : q = p
    · subst hq
      rw [freqIncr, if_pos rfl, countIf_cons, countIf_cons]
      by_cases h : pred q <;> simp [h]
      omega
    · rw [freqIncr, if_neg hq, countIf_cons, countIf_cons, ih]
      omega

theorem countIf_foldl (pred fs m) :
    countIf pred (List.foldl freqIncr m fs)
      = countIf pred m + (fs.filter fun q => pred q).length := by
  induction fs generalizing m with
  | nil => simp
  | cons q rest ih =>
    simp only [List.foldl_cons]
    rw [ih (freqIncr m q), countIf_freqIncr]
    by_cases h : pred q <;> simp [h] <;> omega

theorem countIf_foldFreq (pred fs) :
    countIf pred (foldFreq fs) = (fs.filter fun q => pred q).length := by
  simpa [foldFreq, countIf] using countIf_foldl pred fs []

theorem keys_foldl (fs : List Point) (m) :
    keys (List.foldl freqIncr m fs)
      = List.foldl (fun acc q => if q ∈ acc then acc else acc ++ [q]) (keys m) fs := by
  induction fs generalizing m with
  | nil => rfl
  | cons q rest ih =>
    simp only [List.foldl_cons]
    rw [ih (freqIncr m q), keys_freqIncr]

theorem keys_foldFreq (fs : List Point) : keys (foldFreq fs) = firstOccur fs := by
  simpa [foldFreq, firstOccur] using keys_foldl fs []

theorem foldl_firstOccur_nodup (fs : List Point) :
    ∀ acc, fs.Nodup → (∀ x ∈ fs, x ∉ acc) →
      List.foldl (fun acc q => if q ∈ acc then acc else acc ++ [q]) acc fs = acc ++ fs := by
  induction fs with
  | nil => simp
  | cons q rest ih =>
    intro acc hnd hdis
    have hq : q ∉ acc := hdis q (by simp)
    simp only [List.foldl_cons, if_neg hq]
    rw [ih (acc ++ [q]) (List.nodup_cons.mp hnd).2 ?_]
    · simp
    · intro x hx
      simp only [List.mem_append, List.mem_singleton]
      rintro (hc | he)
      · exact hdis x (by simp [hx]) hc
      · exact (List.nodup_cons.mp hnd).1 (he ▸ hx)

theorem firstOccur_nodup_eq (fs : List Point) (hnd : fs.Nodup) : firstOccur fs = fs := by
  simpa [firstOccur] using foldl_firstOccur_nodup fs [] hnd (by simp)

theorem length_foldFreq_nodup (fs : List Point) (hnd : fs.Nodup) :
    (foldFreq fs).length = fs.length := by
  have h := congrArg List.length (keys_foldFreq fs)
  rw [length_keys, firstOccur_nodup_eq fs hnd] at h
  exact h

theorem mem_foldl_firstOccur (fs : List Point) :
    ∀ acc x, x ∈ List.foldl (fun acc q => if q ∈ acc then acc else acc ++ [q]) acc fs →
      x ∈ acc ∨ x ∈ fs := by
  induction fs with
  | nil => simp
  | cons q rest ih =>
    intro acc x h
    simp only [List.foldl_cons] at h
    by_cases hq : q ∈ acc
    · rw [if_pos hq] at h
      rcases ih acc x h with h1 | h1
      · exact Or.inl h1
      · exact Or.inr (List.mem_cons_of_mem _ h1)
    · rw [if_neg hq] at h
      rcases ih (acc ++ [q]) x h with h1 | h1
      · rcases List.mem_append.mp h1 with h2 | h2
        · exact Or.inl h2
        · exact Or.inr (by simp at h2; simp [h2])
      · exact Or.inr (List.mem_cons_of_mem _ h1)

theorem mem_firstOccur (fs : List Point) (x) (h : x ∈ firstOccur fs) : x ∈ fs := by
  rcases mem_foldl_firstOccur fs [] x (by simpa [firstOccur] using h) with h1 | h1
  · simp at h1
  · exact h1

theorem mem_keys_foldFreq (fs : List Point) (x) (h : x ∈ keys (foldFreq fs)) : x ∈ fs :=
  mem_firstOccur fs x (keys_foldFreq fs ▸ h)

theorem foldFreq_append (fs p) : foldFreq (fs ++ [p]) = freqIncr (foldFreq fs) p := by
  simp [foldFreq, List.foldl_append]

theorem nodup_keys_freqIncr (m p) (h : (keys m).Nodup) : (keys (freqIncr m p)).Nodup := by
  rw [keys_freqIncr]
  by_cases hm : p ∈ keys m
  · simpa [hm] using h
  · simp only [if_neg hm]
    simpa [List.nodup_append, hm] using h

theorem nodup_keys_foldFreq (fs : List Point) : (keys (foldFreq fs)).Nodup := by
  have h : ∀ m, (keys m).Nodup → (keys (List.foldl freqIncr m fs)).Nodup := by
    induction fs with
    | nil => intro m hm; exact hm
    | cons q rest ih =>
      intro m hm
      simp only [List.foldl_cons]
      exact ih (freqIncr m q) (nodup_keys_freqIncr m q hm)
  simpa [foldFreq] using h [] (by simp)

theorem countSame_append (l1 l2 : List Point) (q) :
    countSame (l1 ++ l2) q = countSame l1 q + countSame l2 q := by
  simp [countSame, List.filter_append]

theorem countSame_not_mem (l : List Point) (q) (h : q ∉ l) : countSame l q = 0 := by
  simp only [countSame, List.length_eq_zero]
  refine List.filter_eq_nil.mpr ?_
  intro x hx
  simp only [decide_eq_true_eq]
  exact fun he => h (he ▸ hx)

theorem countSame_replicate (k : ℕ) (a q : Point) :
    countSame (List.replicate k a) q = if a = q then k else 0 := by
  by_cases h : a = q
  · subst h
    simp [countSame, List.filter_replicate]
  · simp [countSame, List.filter_replicate, h]

theorem countSame_perm (l l2 : List Point) (q) (h : List.Perm l l2) :
    countSame l q = countSame l2 q :=
  (h.filter _).length_eq

theorem mem_expandFreq (m x) (h : x ∈ expandFreq m) : x ∈ keys m := by
  induction m with
  | nil => simpa [expandFreq] using h
  | cons qk rest ih =>
    obtain ⟨q, k⟩ := qk
    rw [expandFreq] at h
    rcases List.mem_append.mp h with h1 | h1
    · simp [List.eq_of_mem_replicate h1]
    · exact List.mem_cons_of_mem _ (ih h1)

theorem groupExpand_congr (ks : List Point) (fs fs2 : List Point)
    (h : ∀ x ∈ ks, countSame fs x = countSame fs2 x) :
    groupExpand ks fs = groupExpand ks fs2 := by
  induction ks with
  | nil => rfl
  | cons q rest ih =>
    rw [groupExpand, groupExpand, h q (by simp), ih fun x hx => h x (List.mem_cons_of_mem _ hx)]

theorem expandFreq_eq_groupExpand (m) (hnd : (keys m).Nodup) :
    expandFreq m = groupExpand (keys m) (expandFreq m) := by
  induction m with
  | nil => rfl
  | cons qk rest ih =>
    obtain ⟨q, k⟩ := qk
    have hq : q ∉ keys rest := (List.nodup_cons.mp (by simpa using hnd)).1
    have hrest : (keys rest).Nodup := (List.nodup_cons.mp (by simpa using hnd)).2
    rw [expandFreq, keys_cons, groupExpand]
    have hc : countSame (List.replicate k q ++ expandFreq rest) q = k := by
      rw [countSame_append, countSame_replicate, if_pos rfl,
        countSame_not_mem _ _ (fun hm => hq (mem_expandFreq rest q hm))]
      omega
    rw [hc]
    have hg : groupExpand (keys rest) (List.replicate k q ++ expandFreq rest)
        = groupExpand (keys rest) (expandFreq rest) := by
      refine groupExpand_congr _ _ _ ?_
      intro x hx
      rw [countSame_append, countSame_replicate,
        if_neg (fun he => hq (by rw [he]; exact hx)), Nat.zero_add]
    rw [hg, ← ih hrest]

theorem expandFreq_foldFreq_grouped (fs : List Point) :
    expandFreq (foldFreq fs) = groupExpand (firstOccur fs) fs := by
  rw [expandFreq_eq_groupExpand (foldFreq fs) (nodup_keys_foldFreq fs), keys_foldFreq]
  refine groupExpand_congr _ _ _ ?_
  intro x hx
  exact countSame_perm _ _ _ (expandFreq_foldFreq_perm fs)

theorem pointInRect_iff (r p) :
    pointInRect r p = true ↔ r.x0 ≤ p.x ∧ p.x ≤ r.x1 ∧ r.y0 ≤ p.y ∧ p.y ≤ r.y1 := by
  simp [pointInRect, Bool.and_eq_true, decide_eq_true_eq, and_assoc]

theorem quadrants_cover (r p) (h : pointInRect r p = true) :
    ∃ r2 ∈ quadrants r, pointInRect r2 p = true := by
  rw [pointInRect_iff] at h
  obtain ⟨h1, h2, h3, h4⟩ := h
  rcases le_total p.x (r.x0 + (r.x1 - r.x0) / 2) with hx | hx <;>
    rcases le_total p.y (r.y0 + (r.y1 - r.y0) / 2) with hy | hy
  · refine ⟨⟨r.x0, r.y0, r.x0 + (r.x1 - r.x0) / 2, r.y0 + (r.y1 - r.y0) / 2⟩,
      by simp [quadrants], (pointInRect_iff _ p).mpr ⟨h1, hx, h3, hy⟩⟩
  · refine ⟨⟨r.x0, r.y0 + (r.y1 - r.y0) / 2, r.x0 + (r.x1 - r.x0) / 2, r.y1⟩,
      by simp [quadrants], (pointInRect_iff _ p).mpr ⟨h1, hx, hy, h4⟩⟩
  · refine ⟨⟨r.x0 + (r.x1 - r.x0) / 2, r.y0, r.x1, r.y0 + (r.y1 - r.y0) / 2⟩,
      by simp [quadrants], (pointInRect_iff _ p).mpr ⟨hx, h2, h3, hy⟩⟩
  · refine ⟨⟨r.x0 + (r.x1 - r.x0) / 2, r.y0 + (r.y1 - r.y0) / 2, r.x1, r.y1⟩,
      by simp [quadrants], (pointInRect_iff _ p).mpr ⟨hx, h2, hy, h4⟩⟩

theorem wf_init (r mp) : Wf (Node.init r mp) := by
  have h := Wf.leaf [] mp r (by simp) (by simp [foldFreq])
  simpa [Node.init, foldFreq] using h

theorem forall_of_map_eq {β : Type} (g : Node → β) (l1 l2 : List Node) (b : β)
    (h : l1.map g = l2.map g) (hall : ∀ x ∈ l2, g x = b) : ∀ x ∈ l1, g x = b := by
  intro x hx
  have hm : g x ∈ l2.map g := h ▸ List.mem_map_of_mem g hx
  obtain ⟨y, hy, he⟩ := List.mem_map.mp hm
  rw [← he]
  exact hall y hy

theorem mem_map_transfer {β : Type} (g : Node → β) (l1 l2 : List Node) (x : Node)
    (h : l1.map g = l2.map g) (hx : x ∈ l2) : ∃ y ∈ l1, g y = g x := by
  have hm : g x ∈ l1.map g := by
    rw [h]
    exact List.mem_map_of_mem g hx
  obtain ⟨y, hy, he⟩ := List.mem_map.mp hm
  exact ⟨y, hy, he⟩

theorem fresh_map_rect (r mp) :
    ((quadrants r).map fun q => Node.init q mp).map Node.rectangle = quadrants r := by
  rw [List.map_map]
  have h : (Node.rectangle ∘ fun q => Node.init q mp) = id := funext fun q => rfl
  rw [h, List.map_id]

theorem fresh_nop_sum (r mp) :
    ((((quadrants r).map fun q => Node.init q mp).map Node.number_of_points)).sum = 0 := by
  simp [List.map_map, Node.init, Function.comp, quadrants]

theorem fresh_getAllList (r mp) :
    getAllList ((quadrants r).map fun q => Node.init q mp) = [] := by
  simp [quadrants, Node.init]

theorem fresh_wf (r mp) : ∀ c ∈ (quadrants r).map fun q => Node.init q mp, Wf c := by
  intro c hc
  obtain ⟨q, hq, rfl⟩ := List.mem_map.mp hc
  exact wf_init q mp

theorem fresh_mp (r mp) :
    ∀ c ∈ (quadrants r).map fun q => Node.init q mp, c.max_points = mp := by
  intro c hc
  obtain ⟨q, hq, rfl⟩ := List.mem_map.mp hc
  rfl

theorem pres : ∀ f, AddStmt f ∧ SubStmt f ∧ RouteStmt f ∧ ReinsStmt f := by
  intro f
  induction f with
  | zero =>
    refine ⟨?_, ?_, ?_, ?_⟩
    · intro n p n2 hwf heq
      rw [addPoint_zero] at heq
      simp at heq
    · intro n n2 hready heq
      rw [subdivide_zero] at heq
      simp at heq
    · intro cs p out hall heq
      rw [route_zero] at heq
      simp at heq
    · intro cs ps cs2 hall hcov heq
      rw [reinsert_zero] at heq
      simp at heq
  | succ f ih =>
    obtain ⟨hA, hS, hR, hRE⟩ := ih
    refine ⟨?_, ?_, ?_, ?_⟩
    · -- AddStmt (f + 1)
      intro n p n2 hwf heq
      cases hwf with
      | leaf fs mp r hin hle =>
        cases hpr : pointInRect r p with
        | false =>
          rw [addPoint_oob f (.mk [] (foldFreq fs) fs fs.length mp r .LEAF) p hpr] at heq
          simp at heq
        | true =>
          rw [addPoint_leaf f (.mk [] (foldFreq fs) fs fs.length mp r .LEAF) p hpr
            rfl] at heq
          simp only [max_points_mk, pts_mk] at heq
          have hupd : leafUpd (Node.mk [] (foldFreq fs) fs fs.length mp r .LEAF) p
              = Node.mk [] (foldFreq (fs ++ [p])) (fs ++ [p]) (fs ++ [p]).length mp r
                .LEAF := by
            simp [leafUpd, foldFreq_append]
          rw [hupd] at heq
          have hinr2 : ∀ q ∈ fs ++ [p], pointInRect r q = true := by
            intro q hq
            rcases List.mem_append.mp hq with h1 | h1
            · exact hin q h1
            · simp at h1
              rw [h1]
              exact hpr
          split at heq
          case isTrue hover =>
            have hready : LeafReady (Node.mk [] (foldFreq (fs ++ [p])) (fs ++ [p])
                (fs ++ [p]).length mp r .LEAF) := by
              exact ⟨rfl, rfl, rfl, rfl, hinr2⟩
            obtain ⟨hwf2, hrect, hmp, hnop, hpts, hfs, htype, hqrect, hperm⟩ :=
              hS _ _ hready heq
            refine ⟨hwf2, hrect, hmp, ?_, ?_, ?_⟩
            · simp [hnop]
            · simp only [getAll_leaf]
              exact hperm.trans (List.perm_append_singleton p fs)
            · intro hbr
              simp at hbr
          case isFalse hover =>
            simp only [Except.ok.injEq] at heq
            subst heq
            have hle2 : (foldFreq (fs ++ [p])).length ≤ mp := by
              rw [foldFreq_append]
              omega
            refine ⟨?_, rfl, rfl, by simp, ?_, ?_⟩
            · have h := Wf.leaf (fs ++ [p]) mp r hinr2 hle2
              simpa using h
            · simp only [getAll_leaf]
              exact List.perm_append_singleton p fs
            · intro hbr
              simp at hbr
      | branch cs mp r hqr hkids hmps =>
        cases hpr : pointInRect r p with
        | false =>
          rw [addPoint_oob f (.mk cs [] [] (cs.map Node.number_of_points).sum mp r
            .BRANCH) p hpr] at heq
          simp at heq
        | true =>
          rw [addPoint_branch f (.mk cs [] [] (cs.map Node.number_of_points).sum mp r
            .BRANCH) p hpr (by simp)] at heq
          simp only [children_mk, pts_mk, features_mk, number_of_points_mk,
            max_points_mk, rectangle_mk, type_mk] at heq
          rcases hr : route f cs p with ⟨e, csx⟩ | ⟨csx, b⟩
          · rw [hr] at heq
            simp at heq
          · rw [hr] at heq
            obtain ⟨hk2, hrects2, hmps2, htrue, hfalse⟩ := hR cs p (csx, b) hkids hr
            cases b with
            | false =>
              obtain ⟨hcseq, hnomatch⟩ := hfalse rfl
              obtain ⟨r2, hr2mem, hr2in⟩ := quadrants_cover r p hpr
              rw [← hqr] at hr2mem
              obtain ⟨c, hc, hce⟩ := List.mem_map.mp hr2mem
              rw [← hce] at hr2in
              rw [hnomatch c hc] at hr2in
              simp at hr2in
            | true =>
              obtain ⟨hsum, hperm⟩ := htrue rfl
              simp only [Except.ok.injEq] at heq
              subst heq
              refine ⟨?_, rfl, rfl, by simp, ?_, ?_⟩
              · have hw := Wf.branch csx mp r (hrects2.trans hqr) (fun c hc => hk2 c hc)
                  (forall_of_map_eq Node.max_points csx cs mp hmps2 hmps)
                rw [hsum] at hw
                simpa using hw
              · simp only [getAll_branch]
                exact hperm
              · intro hbr
                rfl
    · -- SubStmt (f + 1)
      intro n n2 hready heq
      obtain ⟨ht, hch, hpts, hnop, hinr⟩ := hready
      rw [subdivide_leaf _ _ ht, hch, List.nil_append] at heq
      rcases hre : reinsert f ((quadrants n.rectangle).map fun q =>
          Node.init q n.max_points) n.features with ⟨e, cs2⟩ | cs2
      · rw [hre] at heq
        simp at heq
      · rw [hre] at heq
        simp only [Except.ok.injEq] at heq
        subst heq
        have hcov : ∀ q ∈ n.features, ∃ c ∈ (quadrants n.rectangle).map fun q2 =>
            Node.init q2 n.max_points, pointInRect c.rectangle q = true := by
          intro q hq
          obtain ⟨r2, hr2mem, hr2in⟩ := quadrants_cover n.rectangle q (hinr q hq)
          exact ⟨Node.init r2 n.max_points, List.mem_map_of_mem _ hr2mem, hr2in⟩
        obtain ⟨hk2, hrects2, hmps2, hsum, hperm⟩ :=
          hRE _ n.features cs2 (fresh_wf _ _) hcov hre
        have hrects3 : cs2.map Node.rectangle = quadrants n.rectangle :=
          hrects2.trans (fresh_map_rect _ _)
        have hsum2 : (cs2.map Node.number_of_points).sum = n.number_of_points := by
          rw [hsum, fresh_nop_sum, hnop]
          omega
        refine ⟨?_, rfl, rfl, rfl, rfl, rfl, rfl, by simpa using hrects3, ?_⟩
        · have hw := Wf.branch cs2 n.max_points n.rectangle hrects3
            (fun c hc => hk2 c hc)
            (forall_of_map_eq Node.max_points cs2 _ n.max_points hmps2 (fresh_mp _ _))
          rw [hsum2] at hw
          exact hw
        · simp only [getAll_branch]
          refine hperm.trans ?_
          rw [fresh_getAllList, List.append_nil]
    · -- RouteStmt (f + 1)
      intro cs p out hall heq
      cases cs with
      | nil =>
        rw [route_nil] at heq
        simp only [Except.ok.injEq] at heq
        subst heq
        refine ⟨by simp, rfl, rfl, ?_, ?_⟩
        · intro h
          simp at h
        · intro _
          exact ⟨rfl, by simp⟩
      | cons c cs2 =>
        cases hpr : pointInRect c.rectangle p with
        | true =>
          rw [route_cons_hit _ _ _ _ hpr] at heq
          rcases ha : addPoint f c p with ⟨e, c2⟩ | c2
          · rw [ha] at heq
            simp at heq
          · rw [ha] at heq
            simp only [Except.ok.injEq] at heq
            subst heq
            obtain ⟨hwf2, hrect, hmp, hnop, hperm, _⟩ :=
              hA c p c2 (hall c (by simp)) ha
            refine ⟨?_, ?_, ?_, ?_, ?_⟩
            · intro x hx
              rcases List.mem_cons.mp hx with h1 | h1
              · rw [h1]
                exact hwf2
              · exact hall x (List.mem_cons_of_mem _ h1)
            · simp [hrect]
            · simp [hmp]
            · intro _
              constructor
              · simp only [List.map_cons, List.sum_cons, hnop]
                omega
              · simp only [getAllList_cons]
                refine (List.Perm.append_right _ hperm).trans ?_
                simp
            · intro h
              simp at h
        | false =>
          rw [route_cons_miss _ _ _ _ hpr] at heq
          rcases hr2 : route f cs2 p with ⟨e, csx⟩ | ⟨csx, b⟩
          · rw [hr2] at heq
            simp at heq
          · rw [hr2] at heq
            simp only [Except.ok.injEq] at heq
            subst heq
            obtain ⟨hk2, hrects2, hmps2, htrue, hfalse⟩ :=
              hR cs2 p (csx, b) (fun x hx => hall x (List.mem_cons_of_mem _ hx)) hr2
            refine ⟨?_, ?_, ?_, ?_, ?_⟩
            · intro x hx
              rcases List.mem_cons.mp hx with h1 | h1
              · rw [h1]
                exact hall c (by simp)
              · exact hk2 x h1
            · simp [hrects2]
            · simp [hmps2]
            · intro hb
              obtain ⟨hsum, hperm⟩ := htrue hb
              constructor
              · simp only [List.map_cons, List.sum_cons, hsum]
                omega
              · simp only [getAllList_cons]
                refine (List.Perm.append_left _ hperm).trans ?_
                exact List.perm_middle
            · intro hb
              obtain ⟨hcseq, hnomatch⟩ := hfalse hb
              refine ⟨by rw [show csx = cs2 from hcseq], ?_⟩
              intro x hx
              rcases List.mem_cons.mp hx with h1 | h1
              · rw [h1]
                exact hpr
              · exact hnomatch x h1
    · -- ReinsStmt (f + 1)
      intro cs ps cs2 hall hcov heq
      cases ps with
      | nil =>
        rw [reinsert_nil] at heq
        simp only [Except.ok.injEq] at heq
        subst heq
        exact ⟨hall, rfl, rfl, by simp, by simp⟩
      | cons p ps2 =>
        rw [reinsert_cons] at heq
        rcases hr : route f cs p with ⟨e, csx⟩ | ⟨csx, b⟩
        · rw [hr] at heq
          simp at heq
        · rw [hr] at heq
          obtain ⟨hk2, hrects2, hmps2, htrue, hfalse⟩ := hR cs p (csx, b) hall hr
          cases b with
          | false =>
            obtain ⟨hcseq, hnomatch⟩ := hfalse rfl
            obtain ⟨c, hc, hcin⟩ := hcov p (by simp)
            rw [hnomatch c hc] at hcin
            simp at hcin
          | true =>
            obtain ⟨hsum, hperm⟩ := htrue rfl
            have hcov2 : ∀ q ∈ ps2, ∃ c ∈ csx, pointInRect c.rectangle q = true := by
              intro q hq
              obtain ⟨c, hc, hcin⟩ := hcov q (List.mem_cons_of_mem _ hq)
              obtain ⟨c2, hc2, hce⟩ := mem_map_transfer Node.rectangle csx cs c hrects2 hc
              exact ⟨c2, hc2, by rw [hce]; exact hcin⟩
            obtain ⟨hk3, hrects3, hmps3, hsum3, hperm3⟩ :=
              hRE csx ps2 cs2 hk2 hcov2 heq
            refine ⟨hk3, hrects3.trans hrects2, hmps3.trans hmps2, ?_, ?_⟩
            · rw [hsum3, hsum]
              simp
              omega
            · refine hperm3.trans ?_
              refine (List.Perm.append_left _ hperm).trans ?_
              exact List.perm_middle

theorem wf_leaf_ready (n) (hwf : Wf n) (ht : n.type = .LEAF) : LeafReady n := by
  cases hwf with
  | leaf fs mp r hin hle => exact ⟨rfl, rfl, rfl, rfl, hin⟩
  | branch cs mp r hqr hkids hmps => simp at ht

theorem wf_children (n c) (hwf : Wf n) (hc : c ∈ n.children) : Wf c := by
  cases hwf with
  | leaf fs mp r hin hle => simp at hc
  | branch cs mp r hqr hkids hmps => exact hkids c hc

theorem reaches_wf (n) (h : Reaches n) : Wf n := by
  induction h with
  | init r mp => exact wf_init r mp
  | add f n n2 p _ heq ih => exact ((pres f).1 n p n2 ih heq).1
  | subdiv f n n2 _ heq ih =>
    cases ht : n.type with
    | LEAF => exact ((pres f).2.1 n n2 (wf_leaf_ready n ih ht) heq).1
    | BRANCH =>
      cases f with
      | zero =>
        rw [subdivide_zero] at heq
        simp at heq
      | succ f =>
        rw [subdivide_not_leaf f n (by rw [ht]; simp)] at heq
        simp at heq
    | ROOT =>
      cases ih with
      | leaf fs mp r hin hle => simp at ht
      | branch cs mp r hqr hkids hmps => simp at ht
  | child n c _ hc ih => exact wf_children n c ih hc

theorem getAllList_length (cs : List Node)
    (h : ∀ c ∈ cs, (Node.get_all_points c).length = c.number_of_points) :
    (getAllList cs).length = (cs.map Node.number_of_points).sum := by
  induction cs with
  | nil => simp
  | cons c rest ih =>
    simp only [getAllList_cons, List.length_append, List.map_cons, List.sum_cons]
    rw [h c (by simp), ih fun x hx => h x (List.mem_cons_of_mem _ hx)]

theorem len_getAll (n) (hwf : Wf n) :
    (Node.get_all_points n).length = n.number_of_points := by
  induction hwf with
  | leaf fs mp r hin hle => simp
  | branch cs mp r hqr hkids hmps ih =>
    simp only [getAll_branch, number_of_points_mk]
    exact getAllList_length cs ih

theorem walkList_perm (cs : List Node)
    (h : ∀ c ∈ cs, List.Perm (Node.walk c) (Node.get_all_points c)) :
    List.Perm (walkList cs) (getAllList cs) := by
  induction cs with
  | nil => simp
  | cons c rest ih =>
    simp only [walkList_cons, getAllList_cons]
    exact (h c (by simp)).append (ih fun x hx => h x (List.mem_cons_of_mem _ hx))

theorem walk_perm_getAll (n) (hwf : Wf n) :
    List.Perm (Node.walk n) (Node.get_all_points n) := by
  induction hwf with
  | leaf fs mp r hin hle =>
    simp only [walk_leaf, getAll_leaf]
    exact expandFreq_foldFreq_perm fs
  | branch cs mp r hqr hkids hmps ih =>
    simp only [walk_branch, getAll_branch]
    exact walkList_perm cs ih

theorem count_mk (reg cs pts fs nop mp r t) :
    Node.count_overlapping_points reg (.mk cs pts fs nop mp r t) =
      if reg.contains_rectangle r then nop
      else if reg.intersects_rectangle r then
        if t = NodeType.LEAF then countIf reg.contains_point pts
        else countList reg cs
      else 0 := by
  rw [Node.count_overlapping_points]

theorem countList_nil (reg) : countList reg [] = 0 := by
  rw [countList]

theorem countList_cons (reg c cs) :
    countList reg (c :: cs) = Node.count_overlapping_points reg c + countList reg cs := by
  rw [countList]

theorem getOv_mk (reg cs pts fs nop mp r t) :
    Node.get_overlapping_points reg (.mk cs pts fs nop mp r t) =
      if reg.contains_rectangle r then
        Node.get_all_points (.mk cs pts fs nop mp r t)
      else if reg.intersects_rectangle r then
        if t = NodeType.LEAF then fs.filter (fun q => reg.contains_point q)
        else getOvList reg cs
      else [] := by
  rw [Node.get_overlapping_points]

theorem getOvList_nil (reg) : getOvList reg [] = [] := by
  rw [getOvList]

theorem getOvList_cons (reg c cs) :
    getOvList reg (c :: cs)
      = Node.get_overlapping_points reg c ++ getOvList reg cs := by
  rw [getOvList]

theorem getOvList_length (reg) (cs : List Node)
    (h : ∀ c ∈ cs, Node.count_overlapping_points reg c
      = (Node.get_overlapping_points reg c).length) :
    countList reg cs = (getOvList reg cs).length := by
  induction cs with
  | nil => simp [countList_nil, getOvList_nil]
  | cons c rest ih =>
    rw [countList_cons, getOvList_cons, List.length_append, h c (by simp),
      ih fun x hx => h x (List.mem_cons_of_mem _ hx)]

theorem count_eq_len_getOv (n) (hwf : Wf n) (reg : Region) :
    Node.count_overlapping_points reg n = (Node.get_overlapping_points reg n).length := by
  induction hwf with
  | leaf fs mp r hin hle =>
    rw [count_mk, getOv_mk]
    by_cases h1 : reg.contains_rectangle r = true
    · rw [if_pos h1, if_pos h1]
      exact (len_getAll _ (Wf.leaf fs mp r hin hle)).symm
    · rw [if_neg h1, if_neg h1]
      by_cases h2 : reg.intersects_rectangle r = true
      · rw [if_pos h2, if_pos h2, if_pos rfl, if_pos rfl]
        exact countIf_foldFreq reg.contains_point fs
      · rw [if_neg h2, if_neg h2]
        rfl
  | branch cs mp r hqr hkids hmps ih =>
    rw [count_mk, getOv_mk]
    by_cases h1 : reg.contains_rectangle r = true
    · rw [if_pos h1, if_pos h1]
      exact (len_getAll _ (Wf.branch cs mp r hqr hkids hmps)).symm
    · rw [if_neg h1, if_neg h1]
      by_cases h2 : reg.intersects_rectangle r = true
      · rw [if_pos h2, if_pos h2]
        simp only [if_neg (by simp : ¬NodeType.BRANCH = NodeType.LEAF)]
        exact getOvList_length reg cs ih
      · rw [if_neg h2, if_neg h2]
        rfl

theorem insertAll_nil (f n) : insertAll f n [] = .ok n := rfl

theorem insertAll_cons (f n p ps) :
    insertAll f n (p :: ps) =
      match addPoint f n p with
      | .ok n2 => insertAll f n2 ps
      | .error e => .error e := by
  rw [insertAll]

theorem insertAll_append (f n xs ys) :
    insertAll f n (xs ++ ys) =
      match insertAll f n xs with
      | .ok m => insertAll f m ys
      | .error e => .error e := by
  induction xs generalizing n with
  | nil => rw [List.nil_append, insertAll_nil]
  | cons x xs ih =>
    rw [List.cons_append, insertAll_cons, insertAll_cons]
    rcases addPoint f n x with e | n2
    · rfl
    · exact ih n2

theorem addPoint_mem_key (f : ℕ) (fs : List Point) (mp : ℕ) (r : Rect) (p : Point)
    (hin : ∀ q ∈ fs, pointInRect r q = true) (hle : (foldFreq fs).length ≤ mp)
    (hmem : p ∈ keys (foldFreq fs)) :
    addPoint (f + 1) (.mk [] (foldFreq fs) fs fs.length mp r .LEAF) p
      = .ok (.mk [] (foldFreq (fs ++ [p])) (fs ++ [p]) (fs ++ [p]).length mp r .LEAF) := by
  have hpin : pointInRect r p = true := hin p (mem_keys_foldFreq fs p hmem)
  rw [addPoint_leaf f (.mk [] (foldFreq fs) fs fs.length mp r .LEAF) p hpin rfl]
  simp only [max_points_mk, pts_mk]
  have hlen : (freqIncr (foldFreq fs) p).length = (foldFreq fs).length := by
    rw [length_freqIncr, if_pos hmem]
  rw [if_neg (by omega)]
  simp [leafUpd, foldFreq_append]

theorem addPoint_new_key (f : ℕ) (fs : List Point) (mp : ℕ) (r : Rect) (p : Point)
    (hpin : pointInRect r p = true) (hnm : p ∉ keys (foldFreq fs))
    (hlt : (foldFreq fs).length < mp) :
    addPoint (f + 1) (.mk [] (foldFreq fs) fs fs.length mp r .LEAF) p
      = .ok (.mk [] (foldFreq (fs ++ [p])) (fs ++ [p]) (fs ++ [p]).length mp r .LEAF) := by
  rw [addPoint_leaf f (.mk [] (foldFreq fs) fs fs.length mp r .LEAF) p hpin rfl]
  simp only [max_points_mk, pts_mk]
  have hlen : (freqIncr (foldFreq fs) p).length = (foldFreq fs).length + 1 := by
    rw [length_freqIncr, if_neg hnm]
  rw [if_neg (by omega)]
  simp [leafUpd, foldFreq_append]

theorem addPoint_overflow (f : ℕ) (fs : List Point) (mp : ℕ) (r : Rect) (p : Point)
    (hpin : pointInRect r p = true) (hnm : p ∉ keys (foldFreq fs))
    (hge : mp ≤ (foldFreq fs).length) :
    addPoint (f + 1) (.mk [] (foldFreq fs) fs fs.length mp r .LEAF) p
      = subdivide f (.mk [] (foldFreq (fs ++ [p])) (fs ++ [p]) (fs ++ [p]).length mp r
          .LEAF) := by
  rw [addPoint_leaf f (.mk [] (foldFreq fs) fs fs.length mp r .LEAF) p hpin rfl]
  simp only [max_points_mk, pts_mk]
  have hlen : (freqIncr (foldFreq fs) p).length = (foldFreq fs).length + 1 := by
    rw [length_freqIncr, if_neg hnm]
  rw [if_pos (by omega)]
  congr 1
  simp [leafUpd, foldFreq_append]

theorem keys_foldFreq_nodup (fs : List Point) (hnd : fs.Nodup) :
    keys (foldFreq fs) = fs := by
  rw [keys_foldFreq, firstOccur_nodup_eq fs hnd]

theorem insertAll_distinct_leaf (ps : List Point) (f : ℕ) (r : Rect) (mp : ℕ)
    (hnd : ps.Nodup) (hin : ∀ q ∈ ps, pointInRect r q = true) (hle : ps.length ≤ mp) :
    insertAll (f + 1) (Node.init r mp) ps
      = .ok (.mk [] (foldFreq ps) ps ps.length mp r .LEAF) := by
  induction ps using List.reverseRecOn with
  | nil => rfl
  | append_singleton xs q ih =>
    have hndx : xs.Nodup := (List.nodup_append.mp hnd).1
    have hq : q ∉ xs := by
      intro hmem
      exact (List.nodup_append.mp hnd).2.2 hmem (by simp)
    rw [insertAll_append]
    rw [ih hndx (fun x hx => hin x (List.mem_append_left _ hx))
      (le_trans (by simp) hle)]
    show insertAll (f + 1) (.mk [] (foldFreq xs) xs xs.length mp r .LEAF) [q] = _
    rw [insertAll_cons]
    rw [addPoint_new_key f xs mp r q (hin q (by simp))
      (by rw [keys_foldFreq_nodup xs hndx]; exact hq)
      (by rw [length_foldFreq_nodup xs hndx]; simp at hle; omega)]
    rfl

theorem insertAll_preserves (ps : List Point) :
    ∀ (f : ℕ) (m m2 : Node), Wf m → insertAll f m ps = .ok m2 →
      Wf m2 ∧ (m.type = .BRANCH → m2.type = .BRANCH) := by
  induction ps with
  | nil =>
    intro f m m2 hwf heq
    rw [insertAll_nil] at heq
    simp only [Except.ok.injEq] at heq
    subst heq
    exact ⟨hwf, fun h => h⟩
  | cons p ps ih =>
    intro f m m2 hwf heq
    rw [insertAll_cons] at heq
    rcases ha : addPoint f m p with e | n2
    · rw [ha] at heq
      simp at heq
    · rw [ha] at heq
      obtain ⟨hwf2, _, _, _, _, hmono⟩ := (pres f).1 m p n2 hwf ha
      obtain ⟨hwf3, hmono2⟩ := ih f n2 m2 hwf2 heq
      exact ⟨hwf3, fun h => hmono2 (hmono h)⟩

theorem insertAll_zero_cons (n p ps) : insertAll 0 n (p :: ps) = .error (.fuelExhausted, n) := by
  rw [insertAll_cons, addPoint_zero]

theorem insertAll_cross (f : ℕ) (r : Rect) (mp : ℕ) (ps1 : List Point) (n2 : Node)
    (hnd : ps1.Nodup) (hin : ∀ q ∈ ps1, pointInRect r q = true)
    (heq : insertAll f (Node.init r mp) ps1 = .ok n2) (hgt : mp < ps1.length) :
    n2.type = .BRANCH ∧ Wf n2 := by
  cases f with
  | zero =>
    cases ps1 with
    | nil => simp at hgt
    | cons p ps =>
      rw [insertAll_zero_cons] at heq
      simp at heq
  | succ g =>
    have hsplit := List.take_append_drop mp ps1
    have hlentake : (ps1.take mp).length = mp := by
      rw [List.length_take]
      omega
    have hdropne : ps1.drop mp ≠ [] := by
      intro hcon
      have := List.length_drop mp ps1
      rw [hcon] at this
      simp at this
      omega
    obtain ⟨q, ys, hdrop⟩ := List.exists_cons_of_ne_nil hdropne
    have hps1 : ps1 = ps1.take mp ++ (q :: ys) := by
      rw [← hdrop, hsplit]
    have hndx : (ps1.take mp).Nodup := by
      rw [hps1] at hnd
      exact (List.nodup_append.mp hnd).1
    have hinx : ∀ x ∈ ps1.take mp, pointInRect r x = true := fun x hx =>
      hin x (by rw [hps1]; exact List.mem_append_left _ hx)
    have h1 : insertAll (g + 1) (Node.init r mp) (ps1.take mp)
        = .ok (.mk [] (foldFreq (ps1.take mp)) (ps1.take mp) (ps1.take mp).length mp r
          .LEAF) :=
      insertAll_distinct_leaf _ g r mp hndx hinx (by omega)
    rw [hps1] at heq
    rw [insertAll_append, h1] at heq
    have heq2 : insertAll (g + 1)
        (.mk [] (foldFreq (ps1.take mp)) (ps1.take mp) (ps1.take mp).length mp r .LEAF)
        (q :: ys) = .ok n2 := heq
    rw [insertAll_cons] at heq2
    have hqnm : q ∉ keys (foldFreq (ps1.take mp)) := by
      rw [keys_foldFreq_nodup _ hndx]
      intro hmem
      rw [hps1] at hnd
      exact (List.nodup_append.mp hnd).2.2 hmem (by simp)
    have hqin : pointInRect r q = true := hin q (by rw [hps1]; simp)
    rw [addPoint_overflow g _ mp r q hqin hqnm
      (by rw [length_foldFreq_nodup _ hndx, hlentake])] at heq2
    rcases hsub : subdivide g (.mk [] (foldFreq (ps1.take mp ++ [q]))
        (ps1.take mp ++ [q]) (ps1.take mp ++ [q]).length mp r .LEAF) with e | mB
    · rw [hsub] at heq2
      simp at heq2
    · rw [hsub] at heq2
      have heq3 : insertAll (g + 1) mB ys = .ok n2 := heq2
      have hready : LeafReady (.mk [] (foldFreq (ps1.take mp ++ [q]))
          (ps1.take mp ++ [q]) (ps1.take mp ++ [q]).length mp r .LEAF) := by
        refine ⟨rfl, rfl, rfl, rfl, ?_⟩
        intro x hx
        rcases List.mem_append.mp hx with h2 | h2
        · exact hinx x h2
        · simp at h2
          rw [h2]
          exact hqin
      obtain ⟨hwfB, _, _, _, _, _, htB, _, _⟩ := (pres g).2.1 _ mB hready hsub
      obtain ⟨hwf2, hmono⟩ := insertAll_preserves ys (g + 1) mB n2 hwfB heq3
      exact ⟨hmono htB, hwf2⟩

theorem keys_fold_append_replicate (k : ℕ) (fs : List Point) (p : Point)
    (hmem : p ∈ keys (foldFreq fs)) :
    keys (foldFreq (fs ++ List.replicate k p)) = keys (foldFreq fs) := by
  induction k with
  | zero => simp
  | succ k ih =>
    rw [List.replicate_succ', ← List.append_assoc, foldFreq_append, keys_freqIncr,
      if_pos (by rw [ih]; exact hmem)]
    exact ih

theorem insertAll_replicate_mem (k : ℕ) :
    ∀ (f : ℕ) (fs : List Point) (mp : ℕ) (r : Rect) (p : Point),
      (∀ q ∈ fs, pointInRect r q = true) → (foldFreq fs).length ≤ mp →
      p ∈ keys (foldFreq fs) →
      insertAll (f + 1) (.mk [] (foldFreq fs) fs fs.length mp r .LEAF)
          (List.replicate k p)
        = .ok (.mk [] (foldFreq (fs ++ List.replicate k p)) (fs ++ List.replicate k p)
            (fs ++ List.replicate k p).length mp r .LEAF) := by
  induction k with
  | zero =>
    intro f fs mp r p hin hle hmem
    simp [insertAll_nil]
  | succ k ih =>
    intro f fs mp r p hin hle hmem
    rw [List.replicate_succ, insertAll_cons, addPoint_mem_key f fs mp r p hin hle hmem]
    have hin2 : ∀ q ∈ fs ++ [p], pointInRect r q = true := by
      intro x hx
      rcases List.mem_append.mp hx with h2 | h2
      · exact hin x h2
      · simp at h2
        rw [h2]
        exact hin p (mem_keys_foldFreq fs p hmem)
    have hle2 : (foldFreq (fs ++ [p])).length ≤ mp := by
      rw [foldFreq_append, length_freqIncr, if_pos hmem]
      exact hle
    have hmem2 : p ∈ keys (foldFreq (fs ++ [p])) := by
      rw [foldFreq_append]
      exact mem_keys_freqIncr_self _ p
    have h3 := ih f (fs ++ [p]) mp r p hin2 hle2 hmem2
    rw [List.append_assoc] at h3
    simp only [List.singleton_append] at h3
    exact h3

theorem countList_eq_sum (reg cs) :
    countList reg cs = (cs.map (Node.count_overlapping_points reg)).sum := by
  induction cs with
  | nil => rw [countList_nil]; rfl
  | cons c rest ih => rw [countList_cons, ih]; rfl

theorem getAll_of_branch (n) (h : n.type = .BRANCH) :
    Node.get_all_points n = getAllList n.children := by
  cases n with
  | mk cs pts fs nop mp r t =>
    simp only [type_mk] at h
    subst h
    simp

theorem quadrants_length (r) : (quadrants r).length = 4 := rfl

theorem pairwise_coords_nodup (ps : List Point)
    (hpw : ps.Pairwise fun a b => ¬(a.x = b.x ∧ a.y = b.y)) : ps.Nodup :=
  hpw.imp fun h => fun he => h (by rw [he]; exact ⟨rfl, rfl⟩)

theorem subdivide_branch_fails (f n) (ht : n.type = .BRANCH) :
    ∀ n2, ¬subdivide f n = .ok n2 := by
  intro n2 heq
  cases f with
  | zero =>
    rw [subdivide_zero] at heq
    simp at heq
  | succ f =>
    rw [subdivide_not_leaf f n (by rw [ht]; simp)] at heq
    simp at heq

/-- C1: for every node and every region, `count_overlapping_points` follows
the three-way pruning logic: a region fully containing the node's
rectangle yields `number_of_points` with no traversal; an overlapping
region yields, on a LEAF, the sum of the frequency-map counts of exactly
the distinct stored coordinates accepted by `contains_point`, and on a
BRANCH the sum of the counts over its children; a disjoint region
yields 0. -/
theorem claim_c1_count_three_way (reg : Region) (n : Node) :
    (reg.contains_rectangle n.rectangle = true →
      Node.count_overlapping_points reg n = n.number_of_points) ∧
    (reg.contains_rectangle n.rectangle = false →
      reg.intersects_rectangle n.rectangle = true →
      (n.type = .LEAF →
        Node.count_overlapping_points reg n = countIf reg.contains_point n.pts) ∧
      (n.type = .BRANCH →
        Node.count_overlapping_points reg n
          = (n.children.map (Node.count_overlapping_points reg)).sum)) ∧
    (reg.contains_rectangle n.rectangle = false →
      reg.intersects_rectangle n.rectangle = false →
      Node.count_overlapping_points reg n = 0) := by
  cases n with
  | mk cs pts fs nop mp r t =>
    refine ⟨?_, ?_, ?_⟩
    · intro h1
      simp only [rectangle_mk] at h1
      rw [count_mk, if_pos h1]
      rfl
    · intro h1 h2
      simp only [rectangle_mk] at h1 h2
      constructor
      · intro ht
        simp only [type_mk] at ht
        subst ht
        rw [count_mk, h1, h2]
        simp
      · intro ht
        simp only [type_mk] at ht
        subst ht
        rw [count_mk, h1, h2]
        simp only [Bool.false_eq_true, if_false, if_true]
        rw [if_neg (by simp : ¬NodeType.BRANCH = NodeType.LEAF)]
        simpa using countList_eq_sum reg cs
    · intro h1 h2
      simp only [rectangle_mk] at h1 h2
      rw [count_mk, h1, h2]
      simp

theorem claim_c1_witness :
    Node.count_overlapping_points
      ⟨fun _ => true, fun _ => true, fun _ => true⟩ (Node.init ⟨0, 0, 1, 1⟩ 2) = 0 :=
  (claim_c1_count_three_way ⟨fun _ => true, fun _ => true, fun _ => true⟩
    (Node.init ⟨0, 0, 1, 1⟩ 2)).1 rfl

/-- C2: for every region and every reachable tree, the count returned by
`count_overlapping_points` equals the length of the list returned by
`get_overlapping_points`. -/
theorem claim_c2_count_eq_len_get (reg : Region) (n : Node) (h : Reaches n) :
    Node.count_overlapping_points reg n
      = (Node.get_overlapping_points reg n).length :=
  count_eq_len_getOv n (reaches_wf n h) reg

theorem claim_c2_witness :
    Node.count_overlapping_points
        ⟨fun _ => false, fun _ => true, fun p => decide (p.x = 0)⟩
        (.mk [] [(⟨0, 0, 0⟩, 1)] [⟨0, 0, 0⟩] 1 2 ⟨0, 0, 1, 1⟩ .LEAF)
      = (Node.get_overlapping_points
          ⟨fun _ => false, fun _ => true, fun p => decide (p.x = 0)⟩
          (.mk [] [(⟨0, 0, 0⟩, 1)] [⟨0, 0, 0⟩] 1 2 ⟨0, 0, 1, 1⟩ .LEAF)).length :=
  claim_c2_count_eq_len_get _ _
    (Reaches.add 1 (Node.init ⟨0, 0, 1, 1⟩ 2) _ ⟨0, 0, 0⟩
      (Reaches.init ⟨0, 0, 1, 1⟩ 2) rfl)

/-- C3 counterexample: two inserted points with equal coordinates but
distinct payloads do NOT fall into the same frequency-map bucket: the
map gains two entries (two distinct keys towards the capacity
threshold), refuting bucketing by bare coordinate identity. -/
theorem claim_c3_counterexample :
    insertAll 1 (Node.init ⟨0, 0, 1, 1⟩ 2) [⟨0, 0, 0⟩, ⟨0, 0, 1⟩]
      = .ok (.mk [] [(⟨0, 0, 0⟩, 1), (⟨0, 0, 1⟩, 1)] [⟨0, 0, 0⟩, ⟨0, 0, 1⟩] 2 2
          ⟨0, 0, 1, 1⟩ .LEAF) ∧
    (keys [((⟨0, 0, 0⟩ : Point), 1), ((⟨0, 0, 1⟩ : Point), 1)]).length = 2 ∧
    (⟨0, 0, 0⟩ : Point).x = (⟨0, 0, 1⟩ : Point).x ∧
    (⟨0, 0, 0⟩ : Point).y = (⟨0, 0, 1⟩ : Point).y ∧
    (⟨0, 0, 0⟩ : Point) ≠ (⟨0, 0, 1⟩ : Point) := by
  refine ⟨rfl, rfl, rfl, rfl, ?_⟩
  decide

/-- C3 (amended): the leaf insertion buckets by full point identity
(coordinates AND payload): equal coordinates with distinct payloads
occupy two distinct frequency-map buckets and count as two distinct keys
toward the capacity threshold, while every inserted instance is retained
in order in the `features` record. -/
theorem claim_c3_amended_payload_buckets (f mp : ℕ) (r : Rect) (x y : ℚ) (d1 d2 : ℕ)
    (hne : ¬d1 = d2) (hin : pointInRect r ⟨x, y, d1⟩ = true) (hmp : 2 ≤ mp) :
    insertAll (f + 1) (Node.init r mp) [⟨x, y, d1⟩, ⟨x, y, d2⟩]
      = .ok (.mk [] [(⟨x, y, d1⟩, 1), (⟨x, y, d2⟩, 1)] [⟨x, y, d1⟩, ⟨x, y, d2⟩] 2 mp r
          .LEAF) := by
  have hpne : ¬(⟨x, y, d1⟩ : Point) = ⟨x, y, d2⟩ := by
    simp [Point.mk.injEq, hne]
  rw [insertAll_cons]
  have h1 : addPoint (f + 1) (Node.init r mp) ⟨x, y, d1⟩
      = .ok (.mk [] [(⟨x, y, d1⟩, 1)] [⟨x, y, d1⟩] 1 mp r .LEAF) :=
    addPoint_new_key f [] mp r ⟨x, y, d1⟩ hin (by simp [foldFreq, keys])
      (by simp [foldFreq]; omega)
  rw [h1]
  show insertAll (f + 1) (.mk [] [(⟨x, y, d1⟩, 1)] [⟨x, y, d1⟩] 1 mp r .LEAF)
    [⟨x, y, d2⟩] = _
  rw [insertAll_cons]
  have h2 := addPoint_new_key f [⟨x, y, d1⟩] mp r ⟨x, y, d2⟩ hin
    (by
      rw [keys_foldFreq_nodup _ (by simp)]
      simpa using fun he => hne he.symm)
    (by
      have : (foldFreq [(⟨x, y, d1⟩ : Point)]).length = 1 := rfl
      omega)
  have hfold : foldFreq [(⟨x, y, d1⟩ : Point), ⟨x, y, d2⟩]
      = [(⟨x, y, d1⟩, 1), (⟨x, y, d2⟩, 1)] := by
    show freqIncr [(⟨x, y, d1⟩, 1)] ⟨x, y, d2⟩ = _
    rw [freqIncr, if_neg hpne]
    rfl
  rw [show ([(⟨x, y, d1⟩ : Point)] ++ [⟨x, y, d2⟩]) = [⟨x, y, d1⟩, ⟨x, y, d2⟩]
    from rfl] at h2
  rw [hfold] at h2
  have h3 : addPoint (f + 1) (.mk [] [(⟨x, y, d1⟩, 1)] [⟨x, y, d1⟩] 1 mp r .LEAF)
      ⟨x, y, d2⟩
      = .ok (.mk [] [(⟨x, y, d1⟩, 1), (⟨x, y, d2⟩, 1)] [⟨x, y, d1⟩, ⟨x, y, d2⟩] 2 mp r
          .LEAF) := h2
  rw [h3]
  rfl

theorem claim_c3_witness :
    insertAll 1 (Node.init ⟨0, 0, 4, 4⟩ 2) [⟨1, 1, 7⟩, ⟨1, 1, 9⟩]
      = .ok (.mk [] [(⟨1, 1, 7⟩, 1), (⟨1, 1, 9⟩, 1)] [⟨1, 1, 7⟩, ⟨1, 1, 9⟩] 2 2
          ⟨0, 0, 4, 4⟩ .LEAF) :=
  claim_c3_amended_payload_buckets 0 2 ⟨0, 0, 4, 4⟩ 1 1 7 9 (by decide) rfl
    (by decide)

/-- C4: repeated insertion of an already-stored coordinate into a
reachable leaf keeps it a LEAF and leaves the set of distinct keys
unchanged; inserting pairwise-distinct coordinates into a fresh leaf
keeps it a LEAF exactly while the number of distinct coordinates stays
within capacity, and once the count exceeds capacity the completed
insertion sequence leaves the node a BRANCH (the single subdivision at
the crossing insertion); a node that is already a BRANCH can never be
subdivided again (`subdivide` fails on it). -/
theorem claim_c4_subdivision_trigger :
    (∀ (f k : ℕ) (n : Node) (p : Point) (n2 : Node), Wf n → n.type = .LEAF →
      p ∈ keys n.pts →
      insertAll (f + 1) n (List.replicate k p) = .ok n2 →
      n2.type = .LEAF ∧ keys n2.pts = keys n.pts) ∧
    (∀ (f : ℕ) (r : Rect) (mp : ℕ) (ps : List Point) (n2 : Node),
      ps.Pairwise (fun a b => ¬(a.x = b.x ∧ a.y = b.y)) →
      (∀ q ∈ ps, pointInRect r q = true) →
      insertAll f (Node.init r mp) ps = .ok n2 →
      (mp < ps.length → n2.type = .BRANCH) ∧
      (ps.length ≤ mp → n2 = .mk [] (foldFreq ps) ps ps.length mp r .LEAF) ∧
      (∀ ps1 ps2, ps = ps1 ++ ps2 → ∃ m,
        insertAll f (Node.init r mp) ps1 = .ok m ∧
        (ps1.length ≤ mp → m.type = .LEAF) ∧
        (mp < ps1.length → m.type = .BRANCH))) ∧
    (∀ (f : ℕ) (n : Node), n.type = .BRANCH → ∀ n2, ¬subdivide f n = .ok n2) := by
  refine ⟨?_, ?_, subdivide_branch_fails⟩
  · intro f k n p n2 hwf ht hmem heq
    cases hwf with
    | leaf fs mp r hin hle =>
      simp only [pts_mk] at hmem
      rw [insertAll_replicate_mem k f fs mp r p hin hle hmem] at heq
      simp only [Except.ok.injEq] at heq
      subst heq
      exact ⟨rfl, by simp [keys_fold_append_replicate k fs p hmem]⟩
    | branch cs mp r hqr hkids hmps => simp at ht
  · intro f r mp ps n2 hpw hin heq
    have hnd := pairwise_coords_nodup ps hpw
    refine ⟨fun hgt => (insertAll_cross f r mp ps n2 hnd hin heq hgt).1, ?_, ?_⟩
    · intro hle
      cases f with
      | zero =>
        cases ps with
        | nil =>
          rw [insertAll_nil] at heq
          simp only [Except.ok.injEq] at heq
          rw [← heq]
          rfl
        | cons p ps =>
          rw [insertAll_zero_cons] at heq
          simp at heq
      | succ g =>
        rw [insertAll_distinct_leaf ps g r mp hnd hin hle] at heq
        simp only [Except.ok.injEq] at heq
        exact heq.symm
    · intro ps1 ps2 hps
      rw [hps, insertAll_append] at heq
      rcases h1 : insertAll f (Node.init r mp) ps1 with e | m
      · rw [h1] at heq
        simp at heq
      · have hnd1 : ps1.Nodup := by
          rw [hps] at hnd
          exact (List.nodup_append.mp hnd).1
        have hin1 : ∀ q ∈ ps1, pointInRect r q = true := fun q hq =>
          hin q (by rw [hps]; exact List.mem_append_left _ hq)
        refine ⟨m, rfl, ?_, ?_⟩
        · intro hle1
          cases f with
          | zero =>
            cases ps1 with
            | nil =>
              rw [insertAll_nil] at h1
              simp only [Except.ok.injEq] at h1
              rw [← h1]
              rfl
            | cons p ps =>
              rw [insertAll_zero_cons] at h1
              simp at h1
          | succ g =>
            rw [insertAll_distinct_leaf ps1 g r mp hnd1 hin1 hle1] at h1
            simp only [Except.ok.injEq] at h1
            rw [← h1]
            rfl
        · intro hgt1
          exact (insertAll_cross f r mp ps1 m hnd1 hin1 h1 hgt1).1

theorem claim_c4_witness :
    (Node.mk [] [(⟨0, 0, 0⟩, 3)] [⟨0, 0, 0⟩, ⟨0, 0, 0⟩, ⟨0, 0, 0⟩] 3 2 ⟨0, 0, 1, 1⟩
      .LEAF).type = .LEAF ∧
    keys (Node.mk [] [(⟨0, 0, 0⟩, 3)] [⟨0, 0, 0⟩, ⟨0, 0, 0⟩, ⟨0, 0, 0⟩] 3 2 ⟨0, 0, 1, 1⟩
      .LEAF).pts
      = keys (Node.mk [] [(⟨0, 0, 0⟩, 1)] [⟨0, 0, 0⟩] 1 2 ⟨0, 0, 1, 1⟩ .LEAF).pts :=
  claim_c4_subdivision_trigger.1 0 2
    (.mk [] [(⟨0, 0, 0⟩, 1)] [⟨0, 0, 0⟩] 1 2 ⟨0, 0, 1, 1⟩ .LEAF) ⟨0, 0, 0⟩
    (.mk [] [(⟨0, 0, 0⟩, 3)] [⟨0, 0, 0⟩, ⟨0, 0, 0⟩, ⟨0, 0, 0⟩] 3 2 ⟨0, 0, 1, 1⟩ .LEAF)
    (Wf.leaf [⟨0, 0, 0⟩] 2 ⟨0, 0, 1, 1⟩ (by decide) (by decide)) rfl (by decide) rfl

/-- C5: for every reachable node, `number_of_points` equals the sum of the
children's counts on a BRANCH and the number of stored instances on a
LEAF; a fresh node starts at zero, every successful insertion increments
the count by exactly one while placing the inserted point in the
subtree, and subdivision leaves the count unchanged — so the count equals
the number of insertions that successfully placed a point at or below
the node. -/
theorem claim_c5_count_invariant (n : Node) (h : Reaches n) :
    (n.type = .BRANCH →
      n.number_of_points = (n.children.map Node.number_of_points).sum) ∧
    (n.type = .LEAF → n.number_of_points = n.features.length) ∧
    (∀ (r : Rect) (mp : ℕ), (Node.init r mp).number_of_points = 0) ∧
    (∀ (f : ℕ) (p : Point) (n2 : Node), addPoint f n p = .ok n2 →
      n2.number_of_points = n.number_of_points + 1 ∧
      List.Perm (Node.get_all_points n2) (p :: Node.get_all_points n)) ∧
    (∀ (f : ℕ) (n2 : Node), subdivide f n = .ok n2 →
      n2.number_of_points = n.number_of_points) := by
  have hwf := reaches_wf n h
  refine ⟨?_, ?_, fun r mp => rfl, ?_, ?_⟩
  · intro ht
    cases hwf with
    | leaf fs mp r hin hle => simp at ht
    | branch cs mp r hqr hkids hmps => rfl
  · intro ht
    cases hwf with
    | leaf fs mp r hin hle => rfl
    | branch cs mp r hqr hkids hmps => simp at ht
  · intro f p n2 heq
    obtain ⟨_, _, _, hnop, hperm, _⟩ := (pres f).1 n p n2 hwf heq
    exact ⟨hnop, hperm⟩
  · intro f n2 heq
    cases hwf with
    | leaf fs mp r hin hle =>
      exact ((pres f).2.1 _ n2 (wf_leaf_ready _ (Wf.leaf fs mp r hin hle) rfl)
        heq).2.2.2.1
    | branch cs mp r hqr hkids hmps =>
      exact absurd heq (subdivide_branch_fails f
        (.mk cs [] [] ((cs.map Node.number_of_points).sum) mp r .BRANCH) rfl n2)

theorem claim_c5_witness :
    (Node.init ⟨0, 0, 1, 1⟩ 2).number_of_points
      = (Node.init ⟨0, 0, 1, 1⟩ 2).features.length :=
  (claim_c5_count_invariant (Node.init ⟨0, 0, 1, 1⟩ 2)
    (Reaches.init ⟨0, 0, 1, 1⟩ 2)).2.1 rfl

/-- C6: a successful `subdivide` of a reachable leaf conserves
`total_point_count`, clears the node's own point storage (frequency map
and ordered record both become empty), makes the node a BRANCH with
exactly four fresh children among which every previously stored instance
(the full ordered list, duplicates included) has been re-inserted, and
changes no other field (rectangle and capacity are untouched). -/
theorem claim_c6_subdivide_frame (f : ℕ) (n n2 : Node) (h : Reaches n)
    (ht : n.type = .LEAF) (heq : subdivide f n = .ok n2) :
    n2.number_of_points = n.number_of_points ∧ n2.pts = [] ∧ n2.features = [] ∧
    n2.type = .BRANCH ∧ n2.children.length = 4 ∧
    List.Perm (getAllList n2.children) n.features ∧
    n2.rectangle = n.rectangle ∧ n2.max_points = n.max_points := by
  obtain ⟨hwf2, hrect, hmp, hnop, hpts, hfs, htype, hmap, hperm⟩ :=
    (pres f).2.1 n n2 (wf_leaf_ready n (reaches_wf n h) ht) heq
  refine ⟨hnop, hpts, hfs, htype, ?_, ?_, hrect, hmp⟩
  · have h4 := congrArg List.length hmap
    rw [List.length_map, quadrants_length] at h4
    exact h4
  · rw [← getAll_of_branch n2 htype]
    exact hperm

theorem claim_c6_witness :
    (Node.mk ((quadrants ⟨0, 0, 1, 1⟩).map fun q => Node.init q 2) [] [] 0 2
      ⟨0, 0, 1, 1⟩ .BRANCH).children.length = 4 ∧
    (Node.mk ((quadrants ⟨0, 0, 1, 1⟩).map fun q => Node.init q 2) [] [] 0 2
      ⟨0, 0, 1, 1⟩ .BRANCH).number_of_points
      = (Node.init ⟨0, 0, 1, 1⟩ 2).number_of_points :=
  ⟨(claim_c6_subdivide_frame 2 (Node.init ⟨0, 0, 1, 1⟩ 2) _
      (Reaches.init ⟨0, 0, 1, 1⟩ 2) rfl rfl).2.2.2.2.1,
   (claim_c6_subdivide_frame 2 (Node.init ⟨0, 0, 1, 1⟩ 2) _
      (Reaches.init ⟨0, 0, 1, 1⟩ 2) rfl rfl).1⟩

/-- C7 counterexample: the error raised for an out-of-bounds insertion is
the very same generic value (`raise Exception` with no information) that
`subdivide` raises when misused on a non-leaf — the two failure classes
are NOT distinct, inspectable error kinds. -/
theorem claim_c7_counterexample :
    errOf (addPoint 1 (Node.init ⟨0, 0, 1, 1⟩ 2) ⟨2, 2, 0⟩)
      = errOf (subdivide 1 (.mk [] [] [] 0 2 ⟨0, 0, 1, 1⟩ .BRANCH)) ∧
    addPoint 1 (Node.init ⟨0, 0, 1, 1⟩ 2) ⟨2, 2, 0⟩
      = .error (.exception, Node.init ⟨0, 0, 1, 1⟩ 2) ∧
    subdivide 1 (.mk [] [] [] 0 2 ⟨0, 0, 1, 1⟩ .BRANCH)
      = .error (.exception, .mk [] [] [] 0 2 ⟨0, 0, 1, 1⟩ .BRANCH) :=
  ⟨rfl, rfl, rfl⟩

/-- C7 (amended): for every node and every point whose coordinates fail
the closed-interval test against the node's rectangle, `add_point`
raises the single generic Exception (the same failure value other
misuses raise) and leaves the node's state — points, children,
`total_point_count` — unchanged. -/
theorem claim_c7_amended_generic_error (f : ℕ) (n : Node) (p : Point)
    (h : pointInRect n.rectangle p = false) :
    addPoint (f + 1) n p = .error (.exception, n) :=
  addPoint_oob f n p h

theorem claim_c7_witness :
    addPoint 3 (Node.init ⟨0, 0, 1, 1⟩ 2) ⟨5, 5, 0⟩
      = .error (.exception, Node.init ⟨0, 0, 1, 1⟩ 2) :=
  claim_c7_amended_generic_error 2 (Node.init ⟨0, 0, 1, 1⟩ 2) ⟨5, 5, 0⟩ rfl

/-- C8 counterexample: constructing a node over a malformed rectangle
(max < min on both axes) does not fail with any error: it silently
produces an ordinary LEAF node storing the degenerate rectangle. -/
theorem claim_c8_counterexample :
    Node.init ⟨1, 1, 0, 0⟩ 2 = .mk [] [] [] 0 2 ⟨1, 1, 0, 0⟩ .LEAF ∧
    (Node.init ⟨1, 1, 0, 0⟩ 2).type = .LEAF ∧
    ¬((⟨1, 1, 0, 0⟩ : Rect).x0 ≤ (⟨1, 1, 0, 0⟩ : Rect).x1) := by
  refine ⟨rfl, rfl, ?_⟩
  decide

/-- C8 (amended): node construction performs no validation of the
rectangle: for every rectangle, malformed or not, it totally succeeds
and returns a LEAF node with the given rectangle stored unchanged, empty
storage, and zero count; no `InvalidRectangle` error path exists in the
code. -/
theorem claim_c8_amended_no_validation (r : Rect) (mp : ℕ) :
    Node.init r mp = .mk [] [] [] 0 mp r .LEAF ∧
    (Node.init r mp).type = .LEAF ∧ (Node.init r mp).rectangle = r :=
  ⟨rfl, rfl, rfl⟩

/-- C9: for every reachable node, `walk` produces a finite sequence that
is a permutation of `get_all_points`: each stored coordinate inserted k
times is emitted exactly k times (the frequency-collapsed leaf storage
is flattened back into one emission per insertion event). -/
theorem claim_c9_walk_perm_get_all (n : Node) (h : Reaches n) :
    List.Perm (Node.walk n) (Node.get_all_points n) :=
  walk_perm_getAll n (reaches_wf n h)

theorem claim_c9_witness :
    List.Perm
      (Node.walk (.mk [] [(⟨0, 0, 0⟩, 1)] [⟨0, 0, 0⟩] 1 2 ⟨0, 0, 1, 1⟩ .LEAF))
      (Node.get_all_points
        (.mk [] [(⟨0, 0, 0⟩, 1)] [⟨0, 0, 0⟩] 1 2 ⟨0, 0, 1, 1⟩ .LEAF)) :=
  claim_c9_walk_perm_get_all _
    (Reaches.add 1 (Node.init ⟨0, 0, 1, 1⟩ 2) _ ⟨0, 0, 0⟩
      (Reaches.init ⟨0, 0, 1, 1⟩ 2) rfl)

/-- C10: within a single reachable leaf, `walk` emits the stored points
grouped by distinct value — each distinct stored point appears
consecutively, repeated once per stored instance, the distinct values
ordered by first insertion — and on a concrete leaf holding an
interleaved duplicate the emission order of `walk` differs from the
strict insertion order `get_all_points` returns even though the two are
permutations of each other. -/
theorem claim_c10_walk_grouped :
    (∀ n : Node, Wf n → n.type = .LEAF →
      Node.walk n = groupExpand (firstOccur n.features) n.features) ∧
    (insertAll 1 (Node.init ⟨0, 0, 1, 1⟩ 3) [⟨0, 0, 0⟩, ⟨1, 1, 0⟩, ⟨0, 0, 0⟩]
      = .ok (.mk [] [(⟨0, 0, 0⟩, 2), (⟨1, 1, 0⟩, 1)] [⟨0, 0, 0⟩, ⟨1, 1, 0⟩, ⟨0, 0, 0⟩]
          3 3 ⟨0, 0, 1, 1⟩ .LEAF) ∧
     Node.walk (.mk [] [(⟨0, 0, 0⟩, 2), (⟨1, 1, 0⟩, 1)]
        [⟨0, 0, 0⟩, ⟨1, 1, 0⟩, ⟨0, 0, 0⟩] 3 3 ⟨0, 0, 1, 1⟩ .LEAF)
       = [⟨0, 0, 0⟩, ⟨0, 0, 0⟩, ⟨1, 1, 0⟩] ∧
     Node.get_all_points (.mk [] [(⟨0, 0, 0⟩, 2), (⟨1, 1, 0⟩, 1)]
        [⟨0, 0, 0⟩, ⟨1, 1, 0⟩, ⟨0, 0, 0⟩] 3 3 ⟨0, 0, 1, 1⟩ .LEAF)
       = [⟨0, 0, 0⟩, ⟨1, 1, 0⟩, ⟨0, 0, 0⟩] ∧
     Node.walk (.mk [] [(⟨0, 0, 0⟩, 2), (⟨1, 1, 0⟩, 1)]
        [⟨0, 0, 0⟩, ⟨1, 1, 0⟩, ⟨0, 0, 0⟩] 3 3 ⟨0, 0, 1, 1⟩ .LEAF)
       ≠ Node.get_all_points (.mk [] [(⟨0, 0, 0⟩, 2), (⟨1, 1, 0⟩, 1)]
          [⟨0, 0, 0⟩, ⟨1, 1, 0⟩, ⟨0, 0, 0⟩] 3 3 ⟨0, 0, 1, 1⟩ .LEAF) ∧
     List.Perm
       (Node.walk (.mk [] [(⟨0, 0, 0⟩, 2), (⟨1, 1, 0⟩, 1)]
          [⟨0, 0, 0⟩, ⟨1, 1, 0⟩, ⟨0, 0, 0⟩] 3 3 ⟨0, 0, 1, 1⟩ .LEAF))
       (Node.get_all_points (.mk [] [(⟨0, 0, 0⟩, 2), (⟨1, 1, 0⟩, 1)]
          [⟨0, 0, 0⟩, ⟨1, 1, 0⟩, ⟨0, 0, 0⟩] 3 3 ⟨0, 0, 1, 1⟩ .LEAF))) := by
  constructor
  · intro n hwf ht
    cases hwf with
    | leaf fs mp r hin hle =>
      simp only [walk_leaf, features_mk]
      exact expandFreq_foldFreq_grouped fs
    | branch cs mp r hqr hkids hmps => simp at ht
  · refine ⟨rfl, rfl, rfl, by decide, by decide⟩

theorem claim_c10_witness :
    Node.walk (.mk [] [(⟨0, 0, 0⟩, 2), (⟨1, 1, 0⟩, 1)]
        [⟨0, 0, 0⟩, ⟨1, 1, 0⟩, ⟨0, 0, 0⟩] 3 3 ⟨0, 0, 1, 1⟩ .LEAF)
      = groupExpand
          (firstOccur (Node.mk [] [(⟨0, 0, 0⟩, 2), (⟨1, 1, 0⟩, 1)]
            [⟨0, 0, 0⟩, ⟨1, 1, 0⟩, ⟨0, 0, 0⟩] 3 3 ⟨0, 0, 1, 1⟩ .LEAF).features)
          (Node.mk [] [(⟨0, 0, 0⟩, 2), (⟨1, 1, 0⟩, 1)]
            [⟨0, 0, 0⟩, ⟨1, 1, 0⟩, ⟨0, 0, 0⟩] 3 3 ⟨0, 0, 1, 1⟩ .LEAF).features :=
  claim_c10_walk_grouped.1 _
    (Wf.leaf [⟨0, 0, 0⟩, ⟨1, 1, 0⟩, ⟨0, 0, 0⟩] 3 ⟨0, 0, 1, 1⟩ (by decide) (by decide))
    rfl

end Quadtree
